import Mathlib

/-!
Shallow embedding of `src/aws/table_aws_opensearch_reserved_instance.go`
(package `aws` of the steampipe AWS plugin), covering the two functions the
claims are about:

* `listOpenSearchReservedInstances` — the paginated enumeration driver:
  page-size arbitration against `d.QueryContext.Limit` (with Go's
  `int32(*d.QueryContext.Limit)` wrapping conversion), the AWS SDK v2
  paginator configured with `StopOnDuplicateToken = true`, and the
  stream-then-check (`d.StreamListItem` / `d.RowsRemaining == 0`) loop.
* `getOpenSearchReservedInstance` — the keyed lookup: empty-key
  short-circuit, client construction, a single `DescribeReservedInstances`
  call, and the first-record-or-nothing result.

Remote calls are modelled as an explicit fetcher function; the consumer-side
cancellation signal (`RowsRemaining`, which lives in the steampipe SDK, not
in this repository) is modelled from the spec as a boolean function of the
number of records emitted so far.  Records are opaque (a type parameter),
errors are opaque strings passed through verbatim.
-/

namespace OpenSearchRI

/-- Opaque continuation token (Go `*string`, `none` for nil). -/
abbrev Token := String

/-- Opaque error value; the driver only passes it along. -/
abbrev Err := String

/-- Go's `int32(x)` conversion applied to an `int64` value: wrap modulo
`2^32` into the signed 32-bit range `[-2^31, 2^31)`. -/
def int32ofInt (x : Int) : Int :=
  (x + 2 ^ 31) % 2 ^ 32 - 2 ^ 31

/-- The `MaxResults` computation of `listOpenSearchReservedInstances`
(source lines 132-149): start from the protocol ceiling 100; when the
caller supplied a limit, convert it with `int32(...)`; if the converted
limit is below 100, use it, except that limits below 20 are raised to the
floor 20. -/
def computeMaxResults (limit64 : Option Int) : Int :=
  let maxResults : Int := 100
  match limit64 with
  | none => maxResults
  | some l =>
      let limit := int32ofInt l
      if limit < maxResults then
        if limit < 20 then 20 else limit
      else maxResults

/-- One `DescribeReservedInstancesInput` as sent on the wire: the optional
`ReservedInstanceId` filter, `MaxResults`, and the pagination `NextToken`. -/
structure Request where
  reservedInstanceId : Option String
  maxResults : Int
  nextToken : Option Token
deriving DecidableEq, Repr

/-- One page of a `DescribeReservedInstances` response: the records plus
the response's `NextToken`. -/
structure Page (α : Type) where
  records : List α
  nextToken : Option Token
deriving DecidableEq, Repr

/-- The remote service, as seen through one `DescribeReservedInstances`
call per invocation. -/
abbrev Fetcher (α : Type) := Request → Except Err (Page α)

/-- The AWS SDK v2 paginator state: `firstPage` and the current token. -/
structure PaginatorState where
  firstPage : Bool
  nextToken : Option Token
deriving DecidableEq, Repr

/-- Paginator state right after `NewDescribeReservedInstancesPaginator`:
first page pending, token taken from the input (nil here). -/
def initPaginator : PaginatorState :=
  ⟨true, none⟩

/-- The SDK's `HasMorePages`: first page still pending, or a non-nil,
non-empty continuation token. -/
def hasMorePages (s : PaginatorState) : Bool :=
  s.firstPage || (match s.nextToken with
    | none => false
    | some t => t.length != 0)

/-- The paginator option set at source line 154. -/
def stopOnDuplicateToken : Bool := true

/-- The SDK's token update inside `NextPage`: keep the response token,
except that with `StopOnDuplicateToken` a non-nil token equal to the
previous non-nil token is replaced by nil (terminating the pagination). -/
def resolveNextToken (prev new : Option Token) : Option Token :=
  if stopOnDuplicateToken && prev.isSome && new.isSome && decide (prev = new)
  then none else new

/-- The request issued for the current paginator state: the immutable base
input with the paginator's current token. -/
def mkRequest (base : Request) (s : PaginatorState) : Request :=
  ⟨base.reservedInstanceId, base.maxResults, s.nextToken⟩

/-- The SDK's `NextPage`: one remote call with the current token; on
success clear `firstPage` and advance the token per `resolveNextToken`. -/
def nextPageStep (f : Fetcher α) (base : Request) (s : PaginatorState) :
    Except Err (List α × PaginatorState) :=
  match f (mkRequest base s) with
  | .error e => .error e
  | .ok page => .ok (page.records, ⟨false, resolveNextToken s.nextToken page.nextToken⟩)

/-- The inner `for _, reservedInstance := range output.ReservedInstances`
loop (source lines 164-171): emit each record via `StreamListItem`, then
immediately check the cancellation signal (`RowsRemaining == 0`); on stop,
return at once.  `n` is the number of records emitted before this page;
the result is (records emitted from this page, new count, stopped?). -/
def streamPage (stop : Nat → Bool) : List α → Nat → List α × Nat × Bool
  | [], n => ([], n, false)
  | r :: rs, n =>
      if stop (n + 1) then ([r], n + 1, true)
      else
        let t := streamPage stop rs (n + 1)
        (r :: t.1, t.2.1, t.2.2)

/-- Observable outcome of one enumeration: the records streamed to the
consumer in order, the trace of wire requests issued, the error returned
(if any), and whether the cancellation signal ended the run. -/
structure RunResult (α : Type) where
  emitted : List α
  fetchArgs : List Request
  errorOut : Option Err
  stopped : Bool
deriving DecidableEq, Repr

/-- The `for paginator.HasMorePages()` loop (source lines 157-172), with a
fuel bound on the number of iterations: while more pages are reported,
fetch the next page (propagating a fetch error as the function's result),
then stream its records, stopping the whole enumeration as soon as the
signal fires. -/
def runLoop (f : Fetcher α) (base : Request) (stop : Nat → Bool) :
    Nat → PaginatorState → Nat → RunResult α
  | 0, _, _ => ⟨[], [], none, false⟩
  | fuel + 1, s, n =>
      if hasMorePages s then
        match nextPageStep f base s with
        | .error e => ⟨[], [mkRequest base s], some e, false⟩
        | .ok (recs, s') =>
            if (streamPage stop recs n).2.2 then
              ⟨(streamPage stop recs n).1, [mkRequest base s], none, true⟩
            else
              ⟨(streamPage stop recs n).1
                  ++ (runLoop f base stop fuel s' ((streamPage stop recs n).2.1)).emitted,
                mkRequest base s
                  :: (runLoop f base stop fuel s' ((streamPage stop recs n).2.1)).fetchArgs,
                (runLoop f base stop fuel s' ((streamPage stop recs n).2.1)).errorOut,
                (runLoop f base stop fuel s' ((streamPage stop recs n).2.1)).stopped⟩
      else ⟨[], [], none, false⟩

/-- The immutable list input (source lines 132-138): optional equals-qual
filter, arbitrated `MaxResults`, nil initial token. -/
def listBaseRequest (qualReservedInstanceId : Option String) (limit64 : Option Int) : Request :=
  ⟨qualReservedInstanceId, computeMaxResults limit64, none⟩

/-- `listOpenSearchReservedInstances` (source lines 124-175): construct
the client (failure is returned as-is before any fetch), build the input,
then run the paginated streaming loop from the initial paginator state. -/
def listOpenSearchReservedInstances (client : Except Err Unit)
    (qualReservedInstanceId : Option String) (limit64 : Option Int)
    (f : Fetcher α) (stop : Nat → Bool) (fuel : Nat) : RunResult α :=
  match client with
  | .error e => ⟨[], [], some e, false⟩
  | .ok _ => runLoop f (listBaseRequest qualReservedInstanceId limit64) stop fuel initPaginator 0

/-- The pages the paginator would deliver (and the error ending them, if
any), ignoring the consumer: the same `HasMorePages`/`NextPage` sequencing
as `runLoop`, without emission. -/
def pagesFrom (f : Fetcher α) (base : Request) :
    Nat → PaginatorState → List (List α) × Option Err
  | 0, _ => ([], none)
  | fuel + 1, s =>
      if hasMorePages s then
        match nextPageStep f base s with
        | .error e => ([], some e)
        | .ok (recs, s') =>
            (recs :: (pagesFrom f base fuel s').1, (pagesFrom f base fuel s').2)
      else ([], none)

/-- Modelled from the spec: the consumer-side cooperative-cancellation
signal (`d.RowsRemaining(ctx) == 0`, implemented in the steampipe SDK,
which is not part of this repository's source).  After `n` records have
been emitted, the signal says stop iff the context has been cancelled or a
present row ceiling `N` satisfies `N ≤ n`. -/
def rowsRemainingZero (cancel : Nat → Bool) (ceiling : Option Nat) (n : Nat) : Bool :=
  cancel n || (match ceiling with
    | some N => decide (N ≤ n)
    | none => false)

/-- Observable events of one lookup: client construction and remote calls,
in order. -/
inductive GetEvent
  | mkClient
  | remoteCall (key : String)
deriving DecidableEq, Repr

/-- `getOpenSearchReservedInstance` (source lines 179-209): read the key
from the equals-quals; an empty key returns no result at once, before the
client is even constructed; otherwise construct the client, issue exactly
one `DescribeReservedInstances` call scoped to the key, propagate its
error verbatim, and return the first record when there is one. -/
def getOpenSearchReservedInstance (key : String) (client : Except Err Unit)
    (svc : String → Except Err (List α)) : Except Err (Option α) × List GetEvent :=
  if key = "" then (.ok none, [])
  else
    match client with
    | .error e => (.error e, [.mkClient])
    | .ok _ =>
        match svc key with
        | .error e => (.error e, [.mkClient, .remoteCall key])
        | .ok rs => (.ok rs.head?, [.mkClient, .remoteCall key])

/-! Concrete scenarios used by the witnesses below. -/

/-- A service delivering the page [A, B] (token p1) and then the page [C]. -/
def wFetchPages : Fetcher String := fun req =>
  match req.nextToken with
  | none => .ok ⟨["A", "B"], some "p1"⟩
  | some "p1" => .ok ⟨["C"], none⟩
  | some _ => .ok ⟨[], none⟩

/-- A misbehaving service that always returns the same continuation token. -/
def wFetchDup : Fetcher String := fun _ => .ok ⟨["X"], some "t"⟩

/-- A service whose second page fetch fails. -/
def wFetchErr : Fetcher String := fun req =>
  match req.nextToken with
  | none => .ok ⟨["A"], some "p1"⟩
  | some _ => .error "boom"

/-- A service delivering a single one-record page. -/
def wFetchOne : Fetcher String := fun _ => .ok ⟨["A"], none⟩

/-- A consumer that never cancels. -/
def wStopFalse : Nat → Bool := fun _ => false

/-- A consumer that signals stop once two records have been emitted. -/
def wStopAfter2 : Nat → Bool := fun n => decide (2 ≤ n)

/-- A lookup backend returning two records for any key. -/
def wSvcTwo : String → Except Err (List String) := fun _ => .ok ["r1", "r2"]

/-- A lookup backend that fails every call. -/
def wSvcErr : String → Except Err (List String) := fun _ => .error "boom"

/-! ## Page-size arbitration -/

theorem int32ofInt_eq_self (x : Int) (h0 : 0 ≤ x) (h1 : x < 2 ^ 31) :
    int32ofInt x = x := by
  unfold int32ofInt
  omega

theorem computeMaxResults_mem_Icc (limit64 : Option Int) :
    20 ≤ computeMaxResults limit64 ∧ computeMaxResults limit64 ≤ 100 := by
  cases limit64 with
  | none => exact ⟨by norm_num [computeMaxResults], by norm_num [computeMaxResults]⟩
  | some l =>
      simp only [computeMaxResults]
      split
      · split
        · omega
        · omega
      · omega

/-- C1: a present row ceiling strictly between 0 and 20 is clamped up, and
the computed page size is 20. -/
theorem smallCeiling_pageSize_twenty (c : Int) (h0 : 0 < c) (h1 : c < 20) :
    computeMaxResults (some c) = 20 := by
  have hx : int32ofInt c = c := int32ofInt_eq_self c (by omega) (by omega)
  simp only [computeMaxResults, hx]
  rw [if_pos (by omega), if_pos (by omega)]

theorem smallCeiling_pageSize_twenty_witness :
    0 < (5 : Int) ∧ (5 : Int) < 20 ∧ computeMaxResults (some 5) = 20 :=
  ⟨by norm_num, by norm_num, smallCeiling_pageSize_twenty 5 (by norm_num) (by norm_num)⟩

/-- C3, counterexample: the ceiling 2^31 = 2147483648 is at least 100, yet
the computed page size is 20, not 100 — Go's `int32(...)` conversion wraps
it to -2^31, which is then clamped up to the floor 20. -/
theorem largeCeiling_pageSize_not_hundred :
    (100 : Int) ≤ 2147483648 ∧ computeMaxResults (some 2147483648) = 20 := by
  constructor
  · norm_num
  · decide

/-- C3 as amended: when the row ceiling is absent the page size is 100, and
when it is present, at least 100, and within the int32 range (below 2^31),
the page size is also 100. -/
theorem bigOrAbsentCeiling_pageSize_hundred (c : Int) (h0 : 100 ≤ c) (h1 : c < 2 ^ 31) :
    computeMaxResults none = 100 ∧ computeMaxResults (some c) = 100 := by
  constructor
  · rfl
  · have hx : int32ofInt c = c := int32ofInt_eq_self c (by omega) h1
    simp only [computeMaxResults, hx]
    rw [if_neg (by omega)]

theorem bigOrAbsentCeiling_pageSize_hundred_witness :
    (100 : Int) ≤ 150 ∧ (150 : Int) < 2 ^ 31 ∧
      (computeMaxResults none = 100 ∧ computeMaxResults (some 150) = 100) :=
  ⟨by norm_num, by norm_num, bigOrAbsentCeiling_pageSize_hundred 150 (by norm_num) (by norm_num)⟩

/-! ## Lookup Resolver -/

/-- C4: a lookup with an empty key returns no result and produces no
events at all — in particular no remote call and no client construction. -/
theorem emptyKey_lookup_no_call (client : Except Err Unit)
    (svc : String → Except Err (List α)) :
    getOpenSearchReservedInstance "" client svc = (.ok none, []) := rfl

/-- C6: a lookup with a non-empty key whose remote call succeeds issues
exactly one remote call (after constructing the client), and that call is
scoped to the key; zero records yield no result, one or more yield the
first record of the response. -/
theorem nonEmptyKey_lookup_first_record (key : String)
    (svc : String → Except Err (List α)) (rs : List α)
    (hk : key ≠ "") (hs : svc key = .ok rs) :
    getOpenSearchReservedInstance key (.ok ()) svc
        = (.ok rs.head?, [.mkClient, .remoteCall key])
      ∧ (rs = [] → (getOpenSearchReservedInstance key (.ok ()) svc).1 = .ok none)
      ∧ (∀ a l, rs = a :: l →
          (getOpenSearchReservedInstance key (.ok ()) svc).1 = .ok (some a)) := by
  have hbase : getOpenSearchReservedInstance key (.ok ()) svc
      = (.ok rs.head?, [.mkClient, .remoteCall key]) := by
    simp only [getOpenSearchReservedInstance, if_neg hk, hs]
  refine ⟨hbase, ?_, ?_⟩
  · intro h
    rw [hbase]
    subst h
    rfl
  · intro a l h
    rw [hbase]
    subst h
    rfl

theorem nonEmptyKey_lookup_first_record_witness :
    ("ri-123" : String) ≠ "" ∧ wSvcTwo "ri-123" = .ok ["r1", "r2"] ∧
      getOpenSearchReservedInstance "ri-123" (.ok ()) wSvcTwo
        = (.ok (some "r1"), [.mkClient, .remoteCall "ri-123"]) :=
  ⟨by decide, rfl,
    (nonEmptyKey_lookup_first_record "ri-123" wSvcTwo ["r1", "r2"] (by decide) rfl).1⟩

/-! ## Per-page streaming lemmas -/

theorem streamPage_count (stop : Nat → Bool) (rs : List α) :
    ∀ n, (streamPage stop rs n).2.1 = n + (streamPage stop rs n).1.length := by
  induction rs with
  | nil => intro n; simp [streamPage]
  | cons r rs ih =>
      intro n
      simp only [streamPage]
      split
      · simp
      · simp only [List.length_cons]
        rw [ih (n + 1)]
        omega

theorem streamPage_emits_front (stop : Nat → Bool) (rs : List α) :
    ∀ n, ∃ t, rs = (streamPage stop rs n).1 ++ t := by
  induction rs with
  | nil => intro n; exact ⟨[], rfl⟩
  | cons r rs ih =>
      intro n
      simp only [streamPage]
      split
      · exact ⟨rs, rfl⟩
      · obtain ⟨t, ht⟩ := ih (n + 1)
        exact ⟨t, by rw [List.cons_append, ← ht]⟩

theorem streamPage_not_stopped (stop : Nat → Bool) (rs : List α) :
    ∀ n, (streamPage stop rs n).2.2 = false →
      (streamPage stop rs n).1 = rs ∧
        ∀ j, j < rs.length → stop (n + j + 1) = false := by
  induction rs with
  | nil => intro n _; exact ⟨rfl, fun j hj => absurd hj (by simp)⟩
  | cons r rs ih =>
      intro n hb
      simp only [streamPage] at hb ⊢
      by_cases hcond : stop (n + 1) = true
      · rw [if_pos hcond] at hb
        simp at hb
      · rw [if_neg hcond] at hb ⊢
        obtain ⟨h1, h2⟩ := ih (n + 1) hb
        refine ⟨by rw [h1], ?_⟩
        intro j hj
        cases j with
        | zero => simpa using hcond
        | succ k =>
            have hk : k < rs.length := by simpa using hj
            have := h2 k hk
            have harith : n + 1 + k + 1 = n + (k + 1) + 1 := by omega
            rw [harith] at this
            exact this

theorem streamPage_stopped (stop : Nat → Bool) (rs : List α) :
    ∀ n, (streamPage stop rs n).2.2 = true →
      0 < (streamPage stop rs n).1.length ∧
        stop (n + (streamPage stop rs n).1.length) = true ∧
        ∀ j, j + 1 < (streamPage stop rs n).1.length → stop (n + j + 1) = false := by
  induction rs with
  | nil => intro n hb; simp [streamPage] at hb
  | cons r rs ih =>
      intro n hb
      simp only [streamPage] at hb ⊢
      by_cases hcond : stop (n + 1) = true
      · rw [if_pos hcond] at hb ⊢
        simp only [List.length_cons, List.length_nil]
        exact ⟨by omega, by simpa using hcond, fun j hj => by omega⟩
      · rw [if_neg hcond] at hb ⊢
        obtain ⟨h1, h2, h3⟩ := ih (n + 1) hb
        simp only [List.length_cons]
        refine ⟨by omega, ?_, ?_⟩
        · have harith : n + ((streamPage stop rs (n + 1)).1.length + 1)
              = n + 1 + (streamPage stop rs (n + 1)).1.length := by omega
          rw [harith]
          exact h2
        · intro j hj
          cases j with
          | zero => simpa using hcond
          | succ k =>
              have hk : k + 1 < (streamPage stop rs (n + 1)).1.length := by omega
              have := h3 k hk
              have harith : n + 1 + k + 1 = n + (k + 1) + 1 := by omega
              rw [harith] at this
              exact this

/-! ## Enumeration-driver lemmas -/

theorem runLoop_maxResults (f : Fetcher α) (base : Request) (stop : Nat → Bool) :
    ∀ fuel s n req, req ∈ (runLoop f base stop fuel s n).fetchArgs →
      req.maxResults = base.maxResults := by
  intro fuel
  induction fuel with
  | zero => intro s n req h; simp [runLoop] at h
  | succ fuel ih =>
      intro s n req h
      simp only [runLoop] at h
      by_cases hmore : hasMorePages s = true
      · rw [if_pos hmore] at h
        rcases hstep : nextPageStep f base s with e | ⟨recs, s'⟩ <;> rw [hstep] at h <;>
          dsimp only at h
        · simp only [List.mem_singleton] at h
          rw [h]
          rfl
        · by_cases hb : (streamPage stop recs n).2.2 = true
          · rw [if_pos hb] at h
            simp only [List.mem_singleton] at h
            rw [h]
            rfl
          · rw [if_neg hb] at h
            simp only [List.mem_cons] at h
            rcases h with h | h
            · rw [h]
              rfl
            · exact ih s' ((streamPage stop recs n).2.1) req h
      · rw [if_neg hmore] at h
        simp at h

theorem runLoop_checks (f : Fetcher α) (base : Request) (stop : Nat → Bool) :
    ∀ fuel s n j, j + 1 < (runLoop f base stop fuel s n).emitted.length →
      stop (n + j + 1) = false := by
  intro fuel
  induction fuel with
  | zero => intro s n j hj; simp [runLoop] at hj
  | succ fuel ih =>
      intro s n j hj
      simp only [runLoop] at hj
      by_cases hmore : hasMorePages s = true
      · rw [if_pos hmore] at hj
        rcases hstep : nextPageStep f base s with e | ⟨recs, s'⟩ <;> rw [hstep] at hj <;>
          dsimp only at hj
        · simp at hj
        · by_cases hb : (streamPage stop recs n).2.2 = true
          · rw [if_pos hb] at hj
            exact (streamPage_stopped stop recs n hb).2.2 j hj
          · rw [if_neg hb] at hj
            have hb' : (streamPage stop recs n).2.2 = false := by simpa using hb
            obtain ⟨h1, h2⟩ := streamPage_not_stopped stop recs n hb'
            have hcnt : (streamPage stop recs n).2.1 = n + recs.length := by
              rw [streamPage_count stop recs n, h1]
            simp only [List.length_append, h1] at hj
            by_cases hjl : j < recs.length
            · exact h2 j hjl
            · have hk : (j - recs.length) + 1
                  < (runLoop f base stop fuel s' ((streamPage stop recs n).2.1)).emitted.length := by
                omega
              have hih := ih s' ((streamPage stop recs n).2.1) (j - recs.length) hk
              rw [hcnt] at hih
              have harith : n + recs.length + (j - recs.length) + 1 = n + j + 1 := by omega
              rw [harith] at hih
              exact hih
      · rw [if_neg hmore] at hj
        simp at hj

theorem runLoop_stopped_signal (f : Fetcher α) (base : Request) (stop : Nat → Bool) :
    ∀ fuel s n, (runLoop f base stop fuel s n).stopped = true →
      0 < (runLoop f base stop fuel s n).emitted.length ∧
        stop (n + (runLoop f base stop fuel s n).emitted.length) = true := by
  intro fuel
  induction fuel with
  | zero => intro s n h; simp [runLoop] at h
  | succ fuel ih =>
      intro s n h
      simp only [runLoop] at h ⊢
      by_cases hmore : hasMorePages s = true
      · simp only [if_pos hmore] at h ⊢
        rcases hstep : nextPageStep f base s with e | ⟨recs, s'⟩ <;> rw [hstep] at h <;>
          dsimp only at h ⊢
        · simp at h
        · by_cases hb : (streamPage stop recs n).2.2 = true
          · simp only [if_pos hb] at h ⊢
            obtain ⟨hl, hs, _⟩ := streamPage_stopped stop recs n hb
            exact ⟨hl, hs⟩
          · simp only [if_neg hb] at h ⊢
            have hb' : (streamPage stop recs n).2.2 = false := by simpa using hb
            obtain ⟨h1, _⟩ := streamPage_not_stopped stop recs n hb'
            have hcnt : (streamPage stop recs n).2.1 = n + recs.length := by
              rw [streamPage_count stop recs n, h1]
            obtain ⟨hl, hs⟩ := ih s' ((streamPage stop recs n).2.1) h
            rw [hcnt] at hl hs ⊢
            simp only [List.length_append, h1]
            constructor
            · omega
            · have harith : n + (recs.length
                  + (runLoop f base stop fuel s' (n + recs.length)).emitted.length)
                  = n + recs.length
                    + (runLoop f base stop fuel s' (n + recs.length)).emitted.length := by
                omega
              rw [harith]
              exact hs
      · simp only [if_neg hmore] at h
        simp at h

theorem runLoop_stopped_stable (f : Fetcher α) (base : Request) (stop : Nat → Bool) :
    ∀ fuel s n, (runLoop f base stop fuel s n).stopped = true →
      ∀ k, runLoop f base stop (fuel + k) s n = runLoop f base stop fuel s n := by
  intro fuel
  induction fuel with
  | zero => intro s n h; simp [runLoop] at h
  | succ fuel ih =>
      intro s n h k
      have harith : fuel + 1 + k = (fuel + k) + 1 := by omega
      rw [harith]
      simp only [runLoop] at h ⊢
      by_cases hmore : hasMorePages s = true
      · simp only [if_pos hmore] at h ⊢
        rcases hstep : nextPageStep f base s with e | ⟨recs, s'⟩ <;> rw [hstep] at h
        all_goals dsimp only at h ⊢
        by_cases hb : (streamPage stop recs n).2.2 = true
        · simp only [if_pos hb]
        · simp only [if_neg hb] at h ⊢
          rw [ih s' ((streamPage stop recs n).2.1) h k]
      · simp only [if_neg hmore]

theorem resolveNextToken_ne (prev new : Option Token) (t : Token)
    (h : resolveNextToken prev new = some t) : prev ≠ some t := by
  unfold resolveNextToken at h
  split at h
  · exact absurd h (by simp)
  · rename_i hc
    intro hp
    apply hc
    rw [hp, h]
    simp [stopOnDuplicateToken]

theorem nextPageStep_token_ne (f : Fetcher α) (base : Request) (s s' : PaginatorState)
    (recs : List α) (hstep : nextPageStep f base s = .ok (recs, s'))
    (hmore : hasMorePages s' = true) : s'.nextToken ≠ s.nextToken := by
  unfold nextPageStep at hstep
  rcases hf : f (mkRequest base s) with e | page <;> rw [hf] at hstep <;> dsimp only at hstep
  · exact absurd hstep (by simp)
  · simp only [Except.ok.injEq, Prod.mk.injEq] at hstep
    obtain ⟨_, hs'⟩ := hstep
    subst hs'
    simp only [hasMorePages, Bool.false_or] at hmore
    rcases htk : resolveNextToken s.nextToken page.nextToken with _ | t
    · rw [htk] at hmore
      simp at hmore
    · intro hcontra
      exact resolveNextToken_ne s.nextToken page.nextToken t htk hcontra.symm

theorem runLoop_token_chain (f : Fetcher α) (base : Request) (stop : Nat → Bool) :
    ∀ fuel s n,
      ((runLoop f base stop fuel s n).fetchArgs ≠ [] → hasMorePages s = true)
      ∧ (∀ q, (runLoop f base stop fuel s n).fetchArgs.head? = some q →
          q.nextToken = s.nextToken)
      ∧ List.Chain' (fun a b => a.nextToken ≠ b.nextToken)
          (runLoop f base stop fuel s n).fetchArgs := by
  intro fuel
  induction fuel with
  | zero => intro s n; simp [runLoop]
  | succ fuel ih =>
      intro s n
      simp only [runLoop]
      by_cases hmore : hasMorePages s = true
      · simp only [if_pos hmore]
        rcases hstep : nextPageStep f base s with e | ⟨recs, s'⟩ <;> dsimp only
        · exact ⟨fun _ => hmore, fun q hq => by simp only [List.head?_cons, Option.some_inj] at hq; rw [← hq]; rfl,
            List.chain'_singleton _⟩
        · by_cases hb : (streamPage stop recs n).2.2 = true
          · simp only [if_pos hb]
            exact ⟨fun _ => hmore, fun q hq => by simp only [List.head?_cons, Option.some_inj] at hq; rw [← hq]; rfl,
              List.chain'_singleton _⟩
          · simp only [if_neg hb]
            obtain ⟨ih1, ih2, ih3⟩ := ih s' ((streamPage stop recs n).2.1)
            refine ⟨fun _ => hmore, fun q hq => by simp only [List.head?_cons, Option.some_inj] at hq; rw [← hq]; rfl, ?_⟩
            rw [List.chain'_cons']
            refine ⟨?_, ih3⟩
            intro b hb'
            have hbtok : b.nextToken = s'.nextToken := ih2 b (by simpa using hb')
            have hargs : (runLoop f base stop fuel s' ((streamPage stop recs n).2.1)).fetchArgs ≠ [] := by
              intro hnil
              rw [hnil] at hb'
              simp at hb'
            have hmore' : hasMorePages s' = true := ih1 hargs
            have hne := nextPageStep_token_ne f base s s' recs hstep hmore'
            rw [hbtok]
            exact fun hcontra => hne hcontra.symm
      · simp only [if_neg hmore]
        simp

theorem runLoop_dupToken_bound (f : Fetcher α) (base : Request) (stop : Nat → Bool)
    (c : Token) (hf : ∀ req, ∃ recs, f req = .ok ⟨recs, some c⟩) :
    ∀ fuel s n, (runLoop f base stop fuel s n).fetchArgs.length
      ≤ if s.nextToken = some c then 1 else 2 := by
  intro fuel
  induction fuel with
  | zero =>
      intro s n
      simp only [runLoop, List.length_nil]
      split <;> omega
  | succ fuel ih =>
      intro s n
      simp only [runLoop]
      by_cases hmore : hasMorePages s = true
      · simp only [if_pos hmore]
        obtain ⟨recs0, hfr⟩ := hf (mkRequest base s)
        have hstep : nextPageStep f base s
            = .ok (recs0, ⟨false, resolveNextToken s.nextToken (some c)⟩) := by
          unfold nextPageStep
          rw [hfr]
        rw [hstep]
        dsimp only
        by_cases hb : (streamPage stop recs0 n).2.2 = true
        · simp only [if_pos hb, List.length_singleton]
          split <;> omega
        · simp only [if_neg hb]
          by_cases hc : s.nextToken = some c
          · have hres : resolveNextToken s.nextToken (some c) = none := by
              rw [hc]
              simp [resolveNextToken, stopOnDuplicateToken]
            have hmore' : hasMorePages ⟨false, resolveNextToken s.nextToken (some c)⟩ = false := by
              rw [hres]
              rfl
            have hnil : (runLoop f base stop fuel
                ⟨false, resolveNextToken s.nextToken (some c)⟩
                ((streamPage stop recs0 n).2.1)).fetchArgs = [] := by
              by_contra hne
              have := (runLoop_token_chain f base stop fuel
                ⟨false, resolveNextToken s.nextToken (some c)⟩
                ((streamPage stop recs0 n).2.1)).1 hne
              rw [hmore'] at this
              exact absurd this (by simp)
            simp only [hnil, List.length_cons, List.length_nil]
            rw [if_pos hc]
          · have hres : resolveNextToken s.nextToken (some c) = some c := by
              unfold resolveNextToken
              rw [if_neg]
              intro hcond
              simp only [stopOnDuplicateToken, Bool.true_and, Bool.and_eq_true,
                decide_eq_true_eq] at hcond
              exact hc hcond.2
            have hih := ih ⟨false, resolveNextToken s.nextToken (some c)⟩
              ((streamPage stop recs0 n).2.1)
            dsimp only at hih
            rw [hres] at hih
            simp at hih
            rw [hres]
            simp only [List.length_cons]
            rw [if_neg hc]
            omega
      · simp only [if_neg hmore, List.length_nil]
        split <;> omega

theorem runLoop_error_last_fetch (f : Fetcher α) (base : Request) (stop : Nat → Bool) :
    ∀ fuel s n e, (runLoop f base stop fuel s n).errorOut = some e →
      ∃ req, (runLoop f base stop fuel s n).fetchArgs.getLast? = some req
        ∧ f req = .error e := by
  intro fuel
  induction fuel with
  | zero => intro s n e h; simp [runLoop] at h
  | succ fuel ih =>
      intro s n e h
      simp only [runLoop] at h ⊢
      by_cases hmore : hasMorePages s = true
      · simp only [if_pos hmore] at h ⊢
        rcases hstep : nextPageStep f base s with e' | ⟨recs, s'⟩ <;> rw [hstep] at h <;>
          dsimp only at h ⊢
        · simp only [Option.some_inj] at h
          subst h
          refine ⟨mkRequest base s, by simp, ?_⟩
          unfold nextPageStep at hstep
          rcases hf : f (mkRequest base s) with e'' | page <;> rw [hf] at hstep <;>
            dsimp only at hstep
          · simp only [Except.error.injEq] at hstep
            rw [hstep]
          · exact absurd hstep (by simp)
        · by_cases hb : (streamPage stop recs n).2.2 = true
          · simp only [if_pos hb] at h
            simp at h
          · simp only [if_neg hb] at h ⊢
            obtain ⟨req, hlast, herr⟩ := ih s' ((streamPage stop recs n).2.1) e h
            refine ⟨req, ?_, herr⟩
            rcases hargs : (runLoop f base stop fuel s'
                ((streamPage stop recs n).2.1)).fetchArgs with _ | ⟨b, bs⟩
            · rw [hargs] at hlast
              simp at hlast
            · rw [hargs] at hlast
              rw [List.getLast?_cons_cons]
              exact hlast
      · simp only [if_neg hmore] at h
        simp at h

theorem runLoop_emits_front (f : Fetcher α) (base : Request) (stop : Nat → Bool) :
    ∀ fuel s n, ∃ t, (pagesFrom f base fuel s).1.flatten
      = (runLoop f base stop fuel s n).emitted ++ t := by
  intro fuel
  induction fuel with
  | zero => intro s n; exact ⟨[], rfl⟩
  | succ fuel ih =>
      intro s n
      simp only [runLoop, pagesFrom]
      by_cases hmore : hasMorePages s = true
      · simp only [if_pos hmore]
        rcases hstep : nextPageStep f base s with e | ⟨recs, s'⟩ <;> dsimp only
        · exact ⟨[], rfl⟩
        · by_cases hb : (streamPage stop recs n).2.2 = true
          · simp only [if_pos hb]
            obtain ⟨u, hu⟩ := streamPage_emits_front stop recs n
            refine ⟨u ++ (pagesFrom f base fuel s').1.flatten, ?_⟩
            rw [List.flatten_cons, ← List.append_assoc, ← hu]
          · simp only [if_neg hb]
            have hb' : (streamPage stop recs n).2.2 = false := by simpa using hb
            obtain ⟨h1, _⟩ := streamPage_not_stopped stop recs n hb'
            obtain ⟨t, ht⟩ := ih s' ((streamPage stop recs n).2.1)
            refine ⟨t, ?_⟩
            rw [List.flatten_cons, ht, h1, List.append_assoc]
      · simp only [if_neg hmore]
        exact ⟨[], rfl⟩

theorem runLoop_nostop_join (f : Fetcher α) (base : Request) (stop : Nat → Bool)
    (hstop : ∀ m, stop m = false) :
    ∀ fuel s n, (runLoop f base stop fuel s n).emitted
      = (pagesFrom f base fuel s).1.flatten := by
  intro fuel
  induction fuel with
  | zero => intro s n; rfl
  | succ fuel ih =>
      intro s n
      simp only [runLoop, pagesFrom]
      by_cases hmore : hasMorePages s = true
      · simp only [if_pos hmore]
        rcases hstep : nextPageStep f base s with e | ⟨recs, s'⟩ <;> dsimp only
        · rfl
        · by_cases hb : (streamPage stop recs n).2.2 = true
          · have := (streamPage_stopped stop recs n hb).2.1
            rw [hstop] at this
            exact absurd this (by simp)
          · simp only [if_neg hb]
            have hb' : (streamPage stop recs n).2.2 = false := by simpa using hb
            obtain ⟨h1, _⟩ := streamPage_not_stopped stop recs n hb'
            rw [List.flatten_cons, ih s' ((streamPage stop recs n).2.1), h1]
      · simp only [if_neg hmore]
        rfl

theorem runLoop_ceiling_bound (f : Fetcher α) (base : Request)
    (cancel : Nat → Bool) (N : Nat) :
    ∀ fuel s n, n + (runLoop f base (rowsRemainingZero cancel (some N)) fuel s n).emitted.length
      ≤ max N (n + 1) := by
  intro fuel
  induction fuel with
  | zero =>
      intro s n
      have := Nat.le_max_right N (n + 1)
      simp only [runLoop, List.length_nil]
      omega
  | succ fuel ih =>
      intro s n
      have hmaxr := Nat.le_max_right N (n + 1)
      have hmaxl := Nat.le_max_left N (n + 1)
      simp only [runLoop]
      by_cases hmore : hasMorePages s = true
      · simp only [if_pos hmore]
        rcases hstep : nextPageStep f base s
            with e | ⟨recs, s'⟩ <;> dsimp only
        · simp only [List.length_nil]
          omega
        · by_cases hb : (streamPage (rowsRemainingZero cancel (some N)) recs n).2.2 = true
          · simp only [if_pos hb]
            obtain ⟨hL, _, h3⟩ := streamPage_stopped (rowsRemainingZero cancel (some N)) recs n hb
            by_cases hL2 :
                (streamPage (rowsRemainingZero cancel (some N)) recs n).1.length < 2
            · omega
            · have hch := h3
                ((streamPage (rowsRemainingZero cancel (some N)) recs n).1.length - 2)
                (by omega)
              simp only [rowsRemainingZero, Bool.or_eq_false_iff,
                decide_eq_false_iff_not] at hch
              omega
          · simp only [if_neg hb]
            have hb' : (streamPage (rowsRemainingZero cancel (some N)) recs n).2.2 = false := by
              simpa using hb
            obtain ⟨h1, h2⟩ :=
              streamPage_not_stopped (rowsRemainingZero cancel (some N)) recs n hb'
            have hcnt : (streamPage (rowsRemainingZero cancel (some N)) recs n).2.1
                = n + recs.length := by
              rw [streamPage_count (rowsRemainingZero cancel (some N)) recs n, h1]
            have hih := ih s'
              ((streamPage (rowsRemainingZero cancel (some N)) recs n).2.1)
            rw [hcnt] at hih
            simp only [List.length_append, h1]
            rw [hcnt]
            by_cases hL : recs.length = 0
            · rw [hL] at hih ⊢
              simp only [Nat.add_zero] at hih ⊢
              omega
            · have hch := h2 (recs.length - 1) (by omega)
              have harith : n + (recs.length - 1) + 1 = n + recs.length := by omega
              rw [harith] at hch
              simp only [rowsRemainingZero, Bool.or_eq_false_iff,
                decide_eq_false_iff_not] at hch
              have hmax' : max N (n + recs.length + 1) = N :=
                Nat.max_eq_left (by omega)
              rw [hmax'] at hih
              omega
      · simp only [if_neg hmore, List.length_nil]
        omega

/-! ## Claim theorems for the enumeration driver -/

/-- C2: the cancellation signal is consulted immediately after every record
emission: (1) every emission except possibly the last was followed by a
check that returned "continue"; (2) when the run ended because of the
signal, the check right after the last emitted record fired, and the run is
already complete — giving the loop any amount of extra fuel fetches no
further page and emits no further record, in particular none of the
remaining records of the current page. -/
theorem cancellation_checked_after_each_emit (f : Fetcher α) (qual : Option String)
    (limit64 : Option Int) (stop : Nat → Bool) (fuel : Nat) :
    (∀ j, j + 1 <
        (listOpenSearchReservedInstances (.ok ()) qual limit64 f stop fuel).emitted.length →
      stop (j + 1) = false)
    ∧ ((listOpenSearchReservedInstances (.ok ()) qual limit64 f stop fuel).stopped = true →
        stop (listOpenSearchReservedInstances (.ok ()) qual limit64 f stop fuel).emitted.length
            = true
        ∧ ∀ k, listOpenSearchReservedInstances (.ok ()) qual limit64 f stop (fuel + k)
            = listOpenSearchReservedInstances (.ok ()) qual limit64 f stop fuel) := by
  constructor
  · intro j hj
    have := runLoop_checks f (listBaseRequest qual limit64) stop fuel initPaginator 0 j hj
    simpa using this
  · intro hstp
    constructor
    · have := (runLoop_stopped_signal f (listBaseRequest qual limit64) stop fuel
        initPaginator 0 hstp).2
      simpa using this
    · intro k
      exact runLoop_stopped_stable f (listBaseRequest qual limit64) stop fuel
        initPaginator 0 hstp k

theorem cancellation_checked_after_each_emit_witness :
    ((listOpenSearchReservedInstances (.ok ()) none none wFetchPages wStopAfter2 5).stopped
        = true)
    ∧ (wStopAfter2 (listOpenSearchReservedInstances (.ok ())
          none none wFetchPages wStopAfter2 5).emitted.length = true
      ∧ ∀ k, listOpenSearchReservedInstances (.ok ()) none none wFetchPages wStopAfter2 (5 + k)
          = listOpenSearchReservedInstances (.ok ()) none none wFetchPages wStopAfter2 5) :=
  ⟨by decide,
   (cancellation_checked_after_each_emit wFetchPages none none wStopAfter2 5).2 (by decide)⟩

/-- C5, counterexample: with a present row ceiling of 0 and a non-empty
first page, the driver still emits one record, because the stream-then-check
loop consults the signal only after an emission; so the claimed bound
"total emitted is at most the ceiling" fails at ceiling 0. -/
theorem ceiling_zero_still_emits_one :
    ¬ ((listOpenSearchReservedInstances (.ok ()) none (some 0) wFetchOne
        (rowsRemainingZero wStopFalse (some 0)) 3).emitted.length ≤ 0) := by
  decide

/-- C5 as amended: with a present row ceiling `N` (and any additional
external cancellation), the total number of records emitted across all
pages is at most `max N 1` — at most `N` whenever `N ≥ 1`, with the single
boundary exception that a ceiling of 0 still admits one record. -/
theorem ceiling_bounds_total_emitted (f : Fetcher α) (qual : Option String)
    (cancel : Nat → Bool) (N : Nat) (fuel : Nat) :
    (listOpenSearchReservedInstances (.ok ()) qual (some (N : Int)) f
        (rowsRemainingZero cancel (some N)) fuel).emitted.length ≤ max N 1 := by
  have := runLoop_ceiling_bound f (listBaseRequest qual (some (N : Int))) cancel N fuel
    initPaginator 0
  simpa using this

/-- C7: records are emitted to the consumer exactly in the order the remote
service returns them, page by page and record by record: the emitted
sequence is always a front segment of the concatenation of the delivered
pages, and when the consumer never cancels it is exactly that
concatenation. -/
theorem emission_order_preserved (f : Fetcher α) (qual : Option String)
    (limit64 : Option Int) (stop : Nat → Bool) (fuel : Nat) :
    (∃ t, (pagesFrom f (listBaseRequest qual limit64) fuel initPaginator).1.flatten
        = (listOpenSearchReservedInstances (.ok ()) qual limit64 f stop fuel).emitted ++ t)
    ∧ ((∀ m, stop m = false) →
        (listOpenSearchReservedInstances (.ok ()) qual limit64 f stop fuel).emitted
          = (pagesFrom f (listBaseRequest qual limit64) fuel initPaginator).1.flatten) :=
  ⟨runLoop_emits_front f (listBaseRequest qual limit64) stop fuel initPaginator 0,
   fun hstop => runLoop_nostop_join f (listBaseRequest qual limit64) stop hstop fuel
     initPaginator 0⟩

theorem emission_order_preserved_witness :
    (∀ m, wStopFalse m = false)
    ∧ (listOpenSearchReservedInstances (.ok ()) none none wFetchPages wStopFalse 5).emitted
        = (pagesFrom wFetchPages (listBaseRequest none none) 5 initPaginator).1.flatten
    ∧ (listOpenSearchReservedInstances (.ok ()) none none wFetchPages wStopFalse 5).emitted
        = ["A", "B", "C"] :=
  ⟨fun m => rfl,
   (emission_order_preserved wFetchPages none none wStopFalse 5).2 (fun m => rfl),
   by decide⟩

/-- C8: the pagination never re-fetches on an immediately repeated
continuation token — consecutive wire requests always carry different
tokens — and a misbehaving service that keeps returning one and the same
token causes at most two fetches in total, for any amount of fuel: the
driver terminates instead of looping. -/
theorem duplicate_token_terminates (f : Fetcher α) (qual : Option String)
    (limit64 : Option Int) (stop : Nat → Bool) (fuel : Nat) (c : Token) :
    List.Chain' (fun a b => a.nextToken ≠ b.nextToken)
      (listOpenSearchReservedInstances (.ok ()) qual limit64 f stop fuel).fetchArgs
    ∧ ((∀ req, ∃ recs, f req = .ok ⟨recs, some c⟩) →
        (listOpenSearchReservedInstances (.ok ()) qual limit64 f stop fuel).fetchArgs.length
          ≤ 2) := by
  constructor
  · exact (runLoop_token_chain f (listBaseRequest qual limit64) stop fuel initPaginator 0).2.2
  · intro hf
    have hb := runLoop_dupToken_bound f (listBaseRequest qual limit64) stop c hf fuel
      initPaginator 0
    have h2 : (if initPaginator.nextToken = some c then 1 else 2) ≤ 2 := by
      split <;> omega
    exact le_trans hb h2

theorem duplicate_token_terminates_witness :
    (∀ req, ∃ recs, wFetchDup req = .ok ⟨recs, some "t"⟩)
    ∧ (listOpenSearchReservedInstances
        (.ok ()) none none wFetchDup wStopFalse 50).fetchArgs.length ≤ 2 :=
  ⟨fun _ => ⟨["X"], rfl⟩,
   (duplicate_token_terminates wFetchDup none none wStopFalse 50 "t").2
     (fun _ => ⟨["X"], rfl⟩)⟩

/-- C9: a remote-call failure is the outcome of the operation, verbatim and
without retry: (1) when the enumeration returns an error, that error is
exactly what the fetcher returned on the last issued request, and no
further request followed it; (2) the records emitted before the failure
remain emitted — absent cancellation they are exactly the concatenation of
the successfully delivered pages; (3) a failing lookup call returns the
service's error unmodified after its single remote call. -/
theorem remote_failure_propagated (f : Fetcher α) (qual : Option String)
    (limit64 : Option Int) (stop : Nat → Bool) (fuel : Nat) (e : Err)
    (key : String) (svc : String → Except Err (List α)) :
    ((listOpenSearchReservedInstances (.ok ()) qual limit64 f stop fuel).errorOut = some e →
      ∃ req, (listOpenSearchReservedInstances
            (.ok ()) qual limit64 f stop fuel).fetchArgs.getLast? = some req
        ∧ f req = .error e)
    ∧ ((∀ m, stop m = false) →
        (listOpenSearchReservedInstances (.ok ()) qual limit64 f stop fuel).errorOut = some e →
        (listOpenSearchReservedInstances (.ok ()) qual limit64 f stop fuel).emitted
          = (pagesFrom f (listBaseRequest qual limit64) fuel initPaginator).1.flatten)
    ∧ (key ≠ "" → svc key = .error e →
        getOpenSearchReservedInstance key (.ok ()) svc
          = (.error e, [.mkClient, .remoteCall key])) := by
  refine ⟨?_, ?_, ?_⟩
  · intro h
    exact runLoop_error_last_fetch f (listBaseRequest qual limit64) stop fuel initPaginator 0 e h
  · intro hstop _
    exact runLoop_nostop_join f (listBaseRequest qual limit64) stop hstop fuel initPaginator 0
  · intro hk hsvc
    simp only [getOpenSearchReservedInstance, if_neg hk, hsvc]

theorem remote_failure_propagated_witness :
    (∃ req, (listOpenSearchReservedInstances
          (.ok ()) none none wFetchErr wStopFalse 5).fetchArgs.getLast? = some req
      ∧ wFetchErr req = .error "boom")
    ∧ getOpenSearchReservedInstance "ri-1" (.ok ()) wSvcErr
        = (.error "boom", [.mkClient, .remoteCall "ri-1"]) :=
  ⟨(remote_failure_propagated wFetchErr none none wStopFalse 5 "boom" "ri-1" wSvcErr).1
      (by decide),
   (remote_failure_propagated wFetchErr none none wStopFalse 5 "boom" "ri-1" wSvcErr).2.2
      (by decide) rfl⟩

/-- C10: whatever row ceiling the caller supplies — absent, zero, negative
after conversion, or outside the int32 range — every wire request the
enumeration actually issues carries a page size within the closed interval
[20, 100]. -/
theorem pageSize_always_in_range (limit64 : Option Int) (qual : Option String)
    (f : Fetcher α) (stop : Nat → Bool) (fuel : Nat) (req : Request)
    (hreq : req ∈
      (listOpenSearchReservedInstances (.ok ()) qual limit64 f stop fuel).fetchArgs) :
    20 ≤ req.maxResults ∧ req.maxResults ≤ 100 := by
  have hmr := runLoop_maxResults f (listBaseRequest qual limit64) stop fuel initPaginator 0
    req hreq
  rw [hmr]
  exact computeMaxResults_mem_Icc limit64

theorem pageSize_always_in_range_witness :
    (⟨none, 100, none⟩ : Request) ∈
        (listOpenSearchReservedInstances (.ok ()) none none wFetchOne wStopFalse 3).fetchArgs
    ∧ (20 ≤ (⟨none, 100, none⟩ : Request).maxResults
        ∧ (⟨none, 100, none⟩ : Request).maxResults ≤ 100) :=
  ⟨by decide,
   pageSize_always_in_range none none wFetchOne wStopFalse 3 ⟨none, 100, none⟩ (by decide)⟩

end OpenSearchRI
